import Mathlib

/-!
A shallow embedding of the `parsink` weighted pattern-matching virtual
machine (`src/lib.rs`), together with proofs of the specification's claims
about it.

Correspondence with the Rust source:

* `trait Weight` (lines 13-28) becomes the operation bundle `WeightOps`:
  `success`, `concat` (fallible, `self` first) and `merge` (infallible,
  higher-priority operand first; the Rust `&mut self` receiver is modelled
  as returning the updated value).
* `trait Step` (lines 44-46) becomes a function field `stepFn : S → T →
  Option W` of the `Machine` bundle.
* `enum Inst<S, PC>` (lines 66-80) becomes `Inst S`.  The caller-chosen PC
  integer type is modelled as `Nat` together with a representability bound
  `pcBound` (the number of distinct values of the PC type); the partial
  conversion `as_pc` (lines 157-161) fails — Rust panics — exactly when
  the computed address is not below that bound.
* `struct Pattern` (lines 82-87) splits into the immutable configuration
  `Machine` (pattern, Weight/Step impls, PC width) and the mutable scratch
  `EngineState` (the `threads` vector and the `index` hash map; the map is
  modelled as an association list with at most one binding per key, which
  is the invariant the code maintains).
* `Pattern::add` (lines 124-155) becomes `Machine.add`.  Rust's panics are
  modelled with `Except Err`; the recursion through `Jump`/`PreferTarget`/
  `PreferNext`, which need not terminate on arbitrary programs, is made
  total with an explicit `fuel` counter, `Err.fuelOut` marking exhaustion
  (it never occurs when every control cycle crosses a `Step`; see the
  termination theorem below).
* `Pattern::eval` (lines 105-122) becomes `Machine.eval`, with the
  per-symbol inner loop `Machine.processThreads` and the outer loop
  `Machine.evalLoop`.  `eval` receives the scratch state left over from a
  previous call, as the Rust method receives `&mut self`.
* the free function `merge` (lines 163-173) becomes `mergeOpt`.
-/

deriving instance DecidableEq for Except

namespace Parsink

/-- The `Weight` trait of the Rust source: `success` is the seed weight,
`concat self other` sequentially combines `self` (accumulated so far) with
`other` (the just-completed step) and may fail, `merge self other` combines
the higher-priority result `self` with the lower-priority result `other`
and never fails. -/
structure WeightOps (W : Type) where
  success : W
  concat : W → W → Option W
  merge : W → W → W

/-- The instruction set (`enum Inst<S, PC>`).  Program counters are
embedded as `Nat`; the Rust `to.into()` conversions are identities here. -/
inductive Inst (S : Type) where
  | step (s : S)
  | jump (tgt : Nat)
  | preferTarget (tgt : Nat)
  | preferNext (tgt : Nat)
deriving DecidableEq, Repr

/-- The mutable scratch state of `struct Pattern`: the `threads` vector of
`(PC, weight)` pairs and the `index` hash map from PC to position in
`threads`, modelled as an association list. -/
structure EngineState (W : Type) where
  threads : List (Nat × W)
  index : List (Nat × Nat)
deriving DecidableEq, Repr

/-- The abnormal outcomes of the embedded engine.  `pcRange pc` models the
`as_pc` panic (`PC {} out of range`); `idxErr` models the vector indexing
panic in the occupied-entry branch of `add` (proved unreachable below);
`fuelOut` marks exhaustion of the fuel that makes the embedding total and
corresponds to non-termination of the Rust recursion, not to any abnormal
outcome of the source. -/
inductive Err where
  | pcRange (pc : Nat)
  | idxErr
  | fuelOut
deriving DecidableEq, Repr

/-- `Pattern::as_pc`: converting a computed `usize` address into the
caller-chosen PC type, which panics when the address is not representable.
`pcBound` is the number of distinct values of the PC type. -/
def as_pc (pcBound pc : Nat) : Except Err Nat :=
  if pc < pcBound then .ok pc else .error (.pcRange pc)

/-- The free function `merge` of the source: the priority-respecting fold
of two optional weights, the first argument being the higher-priority
one. -/
def mergeOpt {W : Type} (ops : WeightOps W) : Option W → Option W → Option W
  | none, none => none
  | some a, none => some a
  | none, some b => some b
  | some a, some b => some (ops.merge a b)

/-- The immutable configuration of one engine: the borrowed program, the
`Weight` and `Step` trait implementations, and the size of the PC type.
This bundles the generic parameters `S, PC, T, W` and their trait bounds
from the Rust `impl` block. -/
structure Machine (S T W : Type) where
  ops : WeightOps W
  stepFn : S → T → Option W
  prog : List (Inst S)
  pcBound : Nat

variable {S T W : Type}

/-- `Pattern::add`: expand one thread at `pc` with accumulated weight `w`
against the current `input` symbol, mutating the scratch state, and return
the completed-match weight if this expansion walked off the end of the
program.  `fuel` bounds the recursion depth through the three
non-consuming control instructions. -/
def Machine.add (M : Machine S T W) (input : T) :
    Nat → Nat → W → EngineState W → Except Err (EngineState W × Option W)
  | fuel, pc, w, st =>
    match M.prog.get? pc with
    -- Walking off the end of the pattern indicates a successful match.
    | none => .ok (st, some w)
    | some (.step s) =>
      match (M.stepFn s input).bind (fun cur => M.ops.concat w cur) with
      | none => .ok (st, none)
      | some new =>
        match as_pc M.pcBound (pc + 1) with
        | .error e => .error e
        | .ok next =>
          match st.index.lookup next with
          | none =>
              .ok ({ threads := st.threads ++ [(next, new)],
                     index := (next, st.threads.length) :: st.index }, none)
          | some i =>
            match st.threads.get? i with
            | none => .error .idxErr
            | some (p, old) =>
              .ok ({ st with threads := st.threads.set i (p, M.ops.merge old new) }, none)
    | some (.jump tgt) =>
      match fuel with
      | 0 => .error .fuelOut
      | fuel + 1 => M.add input fuel tgt w st
    | some (.preferTarget tgt) =>
      match fuel with
      | 0 => .error .fuelOut
      | fuel + 1 =>
        match M.add input fuel tgt w st with
        | .error e => .error e
        | .ok (st, a) =>
          match M.add input fuel (pc + 1) w st with
          | .error e => .error e
          | .ok (st, b) => .ok (st, mergeOpt M.ops a b)
    | some (.preferNext tgt) =>
      match fuel with
      | 0 => .error .fuelOut
      | fuel + 1 =>
        match M.add input fuel (pc + 1) w st with
        | .error e => .error e
        | .ok (st, a) =>
          match M.add input fuel tgt w st with
          | .error e => .error e
          | .ok (st, b) => .ok (st, mergeOpt M.ops a b)

/-- The inner loop of `Pattern::eval`: run `add` on every thread taken
from the previous position's list, folding the completed-match weights
into `matched` in priority order. -/
def Machine.processThreads (M : Machine S T W) (input : T) (fuel : Nat) :
    List (Nat × W) → EngineState W → Option W → Except Err (EngineState W × Option W)
  | [], st, matched => .ok (st, matched)
  | (pc, w) :: rest, st, matched =>
    match M.add input fuel pc w st with
    | .error e => .error e
    | .ok (st, r) => M.processThreads input fuel rest st (mergeOpt M.ops matched r)

/-- The outer loop of `Pattern::eval`: for each input symbol, clear the
convergence index, take the thread list and process it, update the running
result, and stop early when the rebuilt thread list is empty. -/
def Machine.evalLoop (M : Machine S T W) (fuel : Nat) :
    List T → EngineState W → Option W → Except Err (Option W)
  | [], _, result => .ok result
  | input :: rest, st, result =>
    match M.processThreads input fuel st.threads ⟨[], []⟩ none with
    | .error e => .error e
    | .ok (st, matched) =>
      let result := matched.or result
      if st.threads.isEmpty then .ok result
      else M.evalLoop fuel rest st result

/-- `Pattern::eval`: clear the thread list, seed it with PC 0 and the
identity weight, and run the loop.  `st0` is the scratch state left in the
engine by a previous call (`&mut self`); `fuel` is the recursion budget
passed down to `add`. -/
def Machine.eval (M : Machine S T W) (st0 : EngineState W) (fuel : Nat)
    (inputs : List T) : Except Err (Option W) :=
  match as_pc M.pcBound 0 with
  | .error e => .error e
  | .ok p0 => M.evalLoop fuel inputs { st0 with threads := [(p0, M.ops.success)] } none

/-- The unit weight: `impl Weight for ()`. -/
def unitOps : WeightOps Unit :=
  { success := (), concat := fun _ _ => some (), merge := fun _ _ => () }

/-- The inclusive-range step (`impl Step for RangeInclusive`) over `Nat`
symbols, producing the unit weight. -/
def rangeStep (s : Nat × Nat) (t : Nat) : Option Unit :=
  if s.1 ≤ t ∧ t ≤ s.2 then some () else none

/-- The machine of the source's `recognize` test: `Step(b'A'..=b'A')`,
`Step(b'a'..=b'z')`, `PreferTarget(0u8)` with `u8` program counters. -/
def recognizeM : Machine (Nat × Nat) Nat Unit :=
  { ops := unitOps, stepFn := rangeStep,
    prog := [.step (65, 65), .step (97, 122), .preferTarget 0],
    pcBound := 256 }

/-- A list-valued weight used to observe operand order: `concat` appends,
`merge` appends around a marker `9`, so neither operation is commutative
and every combination records which side was `self`. -/
def opsL : WeightOps (List Nat) :=
  { success := [], concat := fun a b => some (a ++ b),
    merge := fun a b => a ++ 9 :: b }

/-- A step over `Nat` symbols yielding the instruction's own payload as
weight, failing on the symbol `0`. -/
def stepL (s : List Nat) (t : Nat) : Option (List Nat) :=
  if t = 0 then none else some s

/-- An engine over the list-valued weight, for concrete evaluations. -/
def listM (prog : List (Inst (List Nat))) (pcBound : Nat) :
    Machine (List Nat) Nat (List Nat) :=
  { ops := opsL, stepFn := stepL, prog := prog, pcBound := pcBound }

/-- Whether an instruction is a consuming `Step` (as opposed to one of the
three non-consuming control instructions). -/
def Inst.isStep : Inst S → Bool
  | .step _ => true
  | _ => false

/-- The program counters an `add` expansion at `pc` recurses to without
consuming input: none for a `Step`, the jump target, or both branches of a
preference instruction. -/
def ctrlTargets : Inst S → Nat → List Nat
  | .step _, _ => []
  | .jump tgt, _ => [tgt]
  | .preferTarget tgt, pc => [tgt, pc + 1]
  | .preferNext tgt, pc => [pc + 1, tgt]

/-- The non-consuming control-flow graph of a program: `M.ctrlEdge a b`
holds when the instruction at `a` makes `add` recurse directly to `b`. -/
def Machine.ctrlEdge (M : Machine S T W) (a b : Nat) : Prop :=
  ∃ i, M.prog.get? a = some i ∧ b ∈ ctrlTargets i a

/-- The number of non-`Step` (control) instructions in the program. -/
def Machine.ctrlCount (M : Machine S T W) : Nat :=
  M.prog.countP fun i => !i.isStep

/-- The invariant the code maintains on the scratch state: every position
recorded in the convergence index is a valid index into the thread
vector. -/
def EngineState.IndexInv (st : EngineState W) : Prop :=
  ∀ p i, (p, i) ∈ st.index → i < st.threads.length

example : recognizeM.eval ⟨[], []⟩ 4 [48] = .ok none := by decide

example : recognizeM.eval ⟨[], []⟩ 4 [65, 98, 65, 122, 48] = .ok (some ()) := by
  decide

/-- The outer loop reads the incoming scratch state only through its
thread list; the leftover convergence index is dead state. -/
lemma evalLoop_threads_eq (M : Machine S T W) (fuel : Nat) (inputs : List T)
    (st st' : EngineState W) (res : Option W) (h : st.threads = st'.threads) :
    M.evalLoop fuel inputs st res = M.evalLoop fuel inputs st' res := by
  cases inputs with
  | nil => rfl
  | cons t ts =>
    rw [Machine.evalLoop.eq_def]
    conv_rhs => rw [Machine.evalLoop.eq_def]
    dsimp only
    rw [h]

/-- C10: for every program and every weight type, evaluating the empty
input sequence yields no match: a completed match is only reported while
processing a symbol, so even the empty program (whose seeded PC 0 is
already past the end) reports nothing before a symbol is consumed.  The
hypothesis states that address 0 is representable in the caller-chosen PC
type, which holds for every Rust integer type. -/
theorem eval_empty_input (M : Machine S T W) (st0 : EngineState W) (fuel : Nat)
    (h : 0 < M.pcBound) : M.eval st0 fuel [] = .ok none := by
  simp [Machine.eval, as_pc, h, Machine.evalLoop]

theorem eval_empty_input_witness :
    0 < recognizeM.pcBound ∧ recognizeM.eval ⟨[], []⟩ 4 [] = .ok none :=
  ⟨by decide, eval_empty_input recognizeM ⟨[], []⟩ 4 (by decide)⟩

/-- C9: the result of `eval` depends only on the program and the input,
not on the scratch state (thread list or convergence index) left over from
a previous call: the thread list is cleared and reseeded at the start of
every call and the index is cleared before each symbol.  In particular two
successive calls on the same engine with the same input return the same
result. -/
theorem eval_scratch_independent (M : Machine S T W) (st0 st1 : EngineState W)
    (fuel : Nat) (inputs : List T) :
    M.eval st0 fuel inputs = M.eval st1 fuel inputs := by
  unfold Machine.eval
  cases as_pc M.pcBound 0 with
  | error e => rfl
  | ok p0 => exact evalLoop_threads_eq M fuel inputs _ _ none rfl

/-- C6: once the thread list rebuilt while processing a symbol comes out
empty, evaluation stops and returns the running result: the remaining
input, whatever it is, is never examined and cannot influence the
result. -/
theorem empty_threads_stop (M : Machine S T W) (fuel : Nat) (t : T)
    (st st' : EngineState W) (res matched : Option W)
    (h : M.processThreads t fuel st.threads ⟨[], []⟩ none = .ok (st', matched))
    (he : st'.threads = []) :
    ∀ rest : List T, M.evalLoop fuel (t :: rest) st res = .ok (matched.or res) := by
  intro rest
  rw [Machine.evalLoop.eq_def]
  dsimp only
  rw [h]
  simp [he]

theorem empty_threads_stop_witness :
    (listM [.step [1]] 10).processThreads 0 3
        (⟨[(0, [])], []⟩ : EngineState (List Nat)).threads ⟨[], []⟩ none =
      .ok (⟨[], []⟩, none) ∧
    (listM [.step [1]] 10).evalLoop 3 [0, 7, 8] ⟨[(0, [])], []⟩ (some [2]) =
      .ok (Option.or none (some [2])) :=
  ⟨by decide,
   empty_threads_stop (listM [.step [1]] 10) 3 0 ⟨[(0, [])], []⟩ ⟨[], []⟩
     (some [2]) none (by decide) rfl [7, 8]⟩

/-- C3: after processing all threads for one symbol, the running result is
set to that symbol's folded completed-match value when one is present and
left unchanged otherwise; hence a completed match found at a later input
position always replaces one found earlier, regardless of either weight's
priority or value. -/
theorem later_match_supersedes (M : Machine S T W) (fuel : Nat) (t : T)
    (ts : List T) (st st' : EngineState W) (res : Option W) (m : W) :
    (M.processThreads t fuel st.threads ⟨[], []⟩ none = .ok (st', some m) →
      M.evalLoop fuel (t :: ts) st res =
        if st'.threads.isEmpty then .ok (some m)
        else M.evalLoop fuel ts st' (some m)) ∧
    (M.processThreads t fuel st.threads ⟨[], []⟩ none = .ok (st', none) →
      M.evalLoop fuel (t :: ts) st res =
        if st'.threads.isEmpty then .ok res else M.evalLoop fuel ts st' res) := by
  constructor <;> intro h <;>
    · rw [Machine.evalLoop.eq_def]
      dsimp only
      rw [h]
      simp [Option.or]

theorem later_match_supersedes_witness :
    (listM [] 10).evalLoop 1 [7] ⟨[(0, [5])], []⟩ (some [99]) =
      if (⟨[], []⟩ : EngineState (List Nat)).threads.isEmpty then .ok (some [5])
      else (listM [] 10).evalLoop 1 [] ⟨[], []⟩ (some [5]) :=
  (later_match_supersedes (listM [] 10) 1 7 [] ⟨[(0, [5])], []⟩ ⟨[], []⟩
    (some [99]) [5]).1 (by decide)

lemma set_concat_length (l : List α) (a b : α) :
    (l ++ [a]).set l.length b = l ++ [b] := by
  induction l with
  | nil => rfl
  | cons x xs ih => simp [List.set, ih]

/-- A `Step` expansion whose step fails: the thread dies, the state is
untouched, nothing is returned. -/
lemma add_step_dead_step (M : Machine S T W) (input : T) (fuel pc : Nat)
    (s : S) (w : W) (st : EngineState W)
    (hs : M.prog.get? pc = some (.step s)) (hstep : M.stepFn s input = none) :
    M.add input fuel pc w st = .ok (st, none) := by
  rw [Machine.add.eq_def]
  dsimp only
  rw [hs]
  simp [hstep]

/-- A `Step` expansion whose step succeeds but whose concatenation fails:
the thread dies, the state is untouched, nothing is returned. -/
lemma add_step_dead_concat (M : Machine S T W) (input : T) (fuel pc : Nat)
    (s : S) (c w : W) (st : EngineState W)
    (hs : M.prog.get? pc = some (.step s)) (hstep : M.stepFn s input = some c)
    (hcat : M.ops.concat w c = none) :
    M.add input fuel pc w st = .ok (st, none) := by
  rw [Machine.add.eq_def]
  dsimp only
  rw [hs]
  simp [hstep, hcat]

/-- A `Step` expansion that succeeds at a PC not yet in the convergence
index: the continuation is appended to the thread list and the index
records its position. -/
lemma add_step_vacant (M : Machine S T W) (input : T) (fuel pc : Nat)
    (s : S) (c w new : W) (st : EngineState W)
    (hs : M.prog.get? pc = some (.step s)) (hstep : M.stepFn s input = some c)
    (hcat : M.ops.concat w c = some new) (hpc : pc + 1 < M.pcBound)
    (hvac : st.index.lookup (pc + 1) = none) :
    M.add input fuel pc w st =
      .ok ({ threads := st.threads ++ [(pc + 1, new)],
             index := (pc + 1, st.threads.length) :: st.index }, none) := by
  rw [Machine.add.eq_def]
  dsimp only
  rw [hs]
  simp [hstep, hcat, as_pc, hpc, hvac]

/-- A `Step` expansion that succeeds at a PC already in the convergence
index: the new weight is merged (as the lower-priority `other` operand)
into the thread recorded at the indexed position, and nothing is
appended. -/
lemma add_step_occupied (M : Machine S T W) (input : T) (fuel pc i : Nat)
    (s : S) (c w new old : W) (p : Nat) (st : EngineState W)
    (hs : M.prog.get? pc = some (.step s)) (hstep : M.stepFn s input = some c)
    (hcat : M.ops.concat w c = some new) (hpc : pc + 1 < M.pcBound)
    (hocc : st.index.lookup (pc + 1) = some i)
    (hget : st.threads.get? i = some (p, old)) :
    M.add input fuel pc w st =
      .ok ({ st with threads := st.threads.set i (p, M.ops.merge old new) },
           none) := by
  have hget' : st.threads[i]? = some (p, old) := by simpa using hget
  rw [Machine.add.eq_def]
  dsimp only
  rw [hs]
  simp [hstep, hcat, as_pc, hpc, hocc, hget']

/-- C1: expanding a `PreferTarget` is the priority fold of the expansion
of the target (run first, higher priority) with the expansion of the
fallthrough PC+1 (run second on the updated state, lower priority); when
both branches complete, the result is `merge` with the target-path result
as the `self` operand.  For `PreferNext` the fallthrough is the
higher-priority operand and is expanded first. -/
theorem prefer_priority_fold (M : Machine S T W) (input : T) :
    (∀ fuel pc tgt w st, M.prog.get? pc = some (.preferTarget tgt) →
      M.add input (fuel + 1) pc w st =
        (M.add input fuel tgt w st).bind fun p =>
          (M.add input fuel (pc + 1) w p.1).map fun q =>
            (q.1, mergeOpt M.ops p.2 q.2)) ∧
    (∀ fuel pc tgt w st, M.prog.get? pc = some (.preferNext tgt) →
      M.add input (fuel + 1) pc w st =
        (M.add input fuel (pc + 1) w st).bind fun p =>
          (M.add input fuel tgt w p.1).map fun q =>
            (q.1, mergeOpt M.ops p.2 q.2)) ∧
    (∀ fuel pc tgt w st st1 st2 wa wb,
      M.prog.get? pc = some (.preferTarget tgt) →
      M.add input fuel tgt w st = .ok (st1, some wa) →
      M.add input fuel (pc + 1) w st1 = .ok (st2, some wb) →
      M.add input (fuel + 1) pc w st = .ok (st2, some (M.ops.merge wa wb))) ∧
    (∀ fuel pc tgt w st st1 st2 wa wb,
      M.prog.get? pc = some (.preferNext tgt) →
      M.add input fuel (pc + 1) w st = .ok (st1, some wa) →
      M.add input fuel tgt w st1 = .ok (st2, some wb) →
      M.add input (fuel + 1) pc w st = .ok (st2, some (M.ops.merge wa wb))) := by
  refine ⟨?_, ?_, ?_, ?_⟩
  · intro fuel pc tgt w st h
    rw [Machine.add.eq_def]
    dsimp only
    rw [h]
    dsimp only
    cases h1 : M.add input fuel tgt w st with
    | error e => rfl
    | ok p =>
      obtain ⟨st1, a⟩ := p
      dsimp only [Except.bind]
      cases h2 : M.add input fuel (pc + 1) w st1 with
      | error e => rfl
      | ok q => obtain ⟨st2, b⟩ := q; rfl
  · intro fuel pc tgt w st h
    rw [Machine.add.eq_def]
    dsimp only
    rw [h]
    dsimp only
    cases h1 : M.add input fuel (pc + 1) w st with
    | error e => rfl
    | ok p =>
      obtain ⟨st1, a⟩ := p
      dsimp only [Except.bind]
      cases h2 : M.add input fuel tgt w st1 with
      | error e => rfl
      | ok q => obtain ⟨st2, b⟩ := q; rfl
  · intro fuel pc tgt w st st1 st2 wa wb h h1 h2
    rw [Machine.add.eq_def]
    dsimp only
    rw [h]
    dsimp only
    rw [h1]
    dsimp only
    rw [h2]
    rfl
  · intro fuel pc tgt w st st1 st2 wa wb h h1 h2
    rw [Machine.add.eq_def]
    dsimp only
    rw [h]
    dsimp only
    rw [h1]
    dsimp only
    rw [h2]
    rfl

theorem prefer_priority_fold_witness :
    (listM [.preferTarget 1] 10).add 5 1 0 [7] ⟨[], []⟩ =
      .ok (⟨[], []⟩, some (opsL.merge [7] [7])) ∧
    (listM [.preferNext 1] 10).add 5 1 0 [8] ⟨[], []⟩ =
      .ok (⟨[], []⟩, some (opsL.merge [8] [8])) :=
  ⟨(prefer_priority_fold (listM [.preferTarget 1] 10) 5).2.2.1 0 0 1 [7]
      ⟨[], []⟩ ⟨[], []⟩ ⟨[], []⟩ [7] [7] (by decide) (by decide) (by decide),
   (prefer_priority_fold (listM [.preferNext 1] 10) 5).2.2.2 0 0 1 [8]
      ⟨[], []⟩ ⟨[], []⟩ ⟨[], []⟩ [8] [8] (by decide) (by decide) (by decide)⟩

/-- C2: when two control paths register a continuation at the same next
PC while processing the same symbol, the first registration appends a
thread and records its position, and the second merges its weight into
that same thread — the first-discovered weight is the `self` operand of
`merge` — without appending a second thread for that PC. -/
theorem convergence_merge_order (M : Machine S T W) (input : T)
    (fuel pc : Nat) (s : S) (c wA wB w1 w2 : W) (st : EngineState W)
    (hs : M.prog.get? pc = some (.step s))
    (hc : M.stepFn s input = some c)
    (h1 : M.ops.concat wA c = some w1)
    (h2 : M.ops.concat wB c = some w2)
    (hpc : pc + 1 < M.pcBound)
    (hvac : st.index.lookup (pc + 1) = none) :
    M.add input fuel pc wA st =
      .ok ({ threads := st.threads ++ [(pc + 1, w1)],
             index := (pc + 1, st.threads.length) :: st.index }, none) ∧
    M.add input fuel pc wB
        { threads := st.threads ++ [(pc + 1, w1)],
          index := (pc + 1, st.threads.length) :: st.index } =
      .ok ({ threads := st.threads ++ [(pc + 1, M.ops.merge w1 w2)],
             index := (pc + 1, st.threads.length) :: st.index }, none) := by
  constructor
  · exact add_step_vacant M input fuel pc s c wA w1 st hs hc h1 hpc hvac
  · have hocc : ((⟨st.threads ++ [(pc + 1, w1)],
        (pc + 1, st.threads.length) :: st.index⟩ :
          EngineState W)).index.lookup (pc + 1) = some st.threads.length := by
      simp [List.lookup]
    have hget : ((⟨st.threads ++ [(pc + 1, w1)],
        (pc + 1, st.threads.length) :: st.index⟩ :
          EngineState W)).threads.get? st.threads.length =
        some (pc + 1, w1) := by
      simp [List.getElem?_concat_length]
    have h := add_step_occupied M input fuel pc st.threads.length s c wB w2 w1
      (pc + 1)
      ⟨st.threads ++ [(pc + 1, w1)], (pc + 1, st.threads.length) :: st.index⟩
      hs hc h2 hpc hocc hget
    rw [h]
    simp [set_concat_length]

theorem convergence_merge_order_witness :
    (listM [.step [1]] 10).add 5 3 0 [2] ⟨[], []⟩ =
      .ok (⟨[(1, [2, 1])], [(1, 0)]⟩, none) ∧
    (listM [.step [1]] 10).add 5 3 0 [3] ⟨[(1, [2, 1])], [(1, 0)]⟩ =
      .ok (⟨[(1, opsL.merge [2, 1] [3, 1])], [(1, 0)]⟩, none) := by
  have h := convergence_merge_order (listM [.step [1]] 10) 5 3 0 [1] [1]
    [2] [3] [2, 1] [3, 1] ⟨[], []⟩ (by decide) (by decide) (by decide)
    (by decide) (by decide) (by decide)
  exact ⟨h.1, h.2⟩

/-- C4 counterexample: an expansion whose PC is *not* past the end of the
program (here a `Jump` whose target is past the end) still returns a
completed-match weight, so completion is not returned *only* at
past-the-end PCs. -/
theorem completion_not_only_past_end :
    (listM [.jump 1] 10).add 0 1 0 [5] ⟨[], []⟩ = .ok (⟨[], []⟩, some [5]) ∧
    0 < (listM [.jump 1] 10).prog.length := by decide

/-- C4 (amended): an expansion whose PC is past the end of the program
returns the incoming weight unchanged and registers nothing (the scratch
state is returned untouched) — this is the only place a completed match
originates, though control instructions propagate completions of their
branches — and an expansion whose instruction is a `Step` never returns a
completed match. -/
theorem past_end_and_step_expansion (M : Machine S T W) (input : T)
    (fuel pc : Nat) (w : W) (st : EngineState W) :
    (M.prog.get? pc = none → M.add input fuel pc w st = .ok (st, some w)) ∧
    (∀ s out, M.prog.get? pc = some (.step s) →
      M.add input fuel pc w st = .ok out → out.2 = none) := by
  constructor
  · intro h
    rw [Machine.add.eq_def]
    dsimp only
    rw [h]
  · intro s out h hadd
    rw [Machine.add.eq_def] at hadd
    dsimp only at hadd
    rw [h] at hadd
    dsimp only at hadd
    rcases hb : (M.stepFn s input).bind fun cur => M.ops.concat w cur with _ | new <;>
      rw [hb] at hadd
    · simp only [Except.ok.injEq] at hadd
      subst hadd
      rfl
    · simp only [as_pc] at hadd
      repeat' split at hadd
      all_goals first
        | exact Except.noConfusion hadd
        | (simp only [Except.ok.injEq] at hadd
           subst hadd
           rfl)

theorem past_end_and_step_expansion_witness :
    (listM [] 10).add 0 3 5 [2] ⟨[], []⟩ = .ok (⟨[], []⟩, some [2]) ∧
    ((⟨[(1, [2, 1])], [(1, 0)]⟩, none) :
        EngineState (List Nat) × Option (List Nat)).2 = none :=
  ⟨(past_end_and_step_expansion (listM [] 10) 0 3 5 [2] ⟨[], []⟩).1 rfl,
   (past_end_and_step_expansion (listM [.step [1]] 10) 5 3 0 [2] ⟨[], []⟩).2
     [1] (⟨[(1, [2, 1])], [(1, 0)]⟩, none) rfl (by decide)⟩

/-- C5 counterexample: at a `Step`, the code computes
`weight.concat(&cur)` — the accumulated path weight `w` is the `self`
operand and the completed step's weight `s` is `other`.  With the
append-based `concat` of `opsL`, accumulated weight `[0]` and step weight
`[1]`, the registered weight is `[0, 1] = concat [0] [1]`, not the claim's
`concat [1] [0] = [1, 0]`. -/
theorem concat_operand_order_counterexample :
    (listM [.step [1]] 10).add 5 1 0 [0] ⟨[], []⟩ =
      .ok (⟨[(1, [0, 1])], [(1, 0)]⟩, none) ∧
    opsL.concat [0] [1] = some [0, 1] ∧
    opsL.concat [1] [0] = some [1, 0] ∧
    ([0, 1] : List Nat) ≠ [1, 0] := by decide

/-- C5 (amended): at a `Step` carrying accumulated weight `w`, the engine
evaluates `step` on the symbol; on step weight `c` it computes
`concat` with the *accumulated* weight `w` as the `self` operand and `c`
as `other`; a continuation is registered at PC+1 (appended when that PC is
not yet indexed) iff both the step and the concatenation are present, and
if either is absent the thread dies with the state untouched. -/
theorem step_expansion_concat_order (M : Machine S T W) (input : T)
    (fuel pc : Nat) (s : S) (w : W) (st : EngineState W)
    (hs : M.prog.get? pc = some (.step s)) :
    (M.stepFn s input = none → M.add input fuel pc w st = .ok (st, none)) ∧
    (∀ c, M.stepFn s input = some c → M.ops.concat w c = none →
      M.add input fuel pc w st = .ok (st, none)) ∧
    (∀ c new, M.stepFn s input = some c → M.ops.concat w c = some new →
      pc + 1 < M.pcBound → st.index.lookup (pc + 1) = none →
      M.add input fuel pc w st =
        .ok ({ threads := st.threads ++ [(pc + 1, new)],
               index := (pc + 1, st.threads.length) :: st.index }, none)) :=
  ⟨fun hstep => add_step_dead_step M input fuel pc s w st hs hstep,
   fun c hstep hcat => add_step_dead_concat M input fuel pc s c w st hs hstep hcat,
   fun c new hstep hcat hpc hvac =>
     add_step_vacant M input fuel pc s c w new st hs hstep hcat hpc hvac⟩

theorem step_expansion_concat_order_witness :
    (listM [.step [1]] 10).add 0 3 0 [2] ⟨[], []⟩ = .ok (⟨[], []⟩, none) ∧
    (listM [.step [1]] 10).add 5 3 0 [2] ⟨[], []⟩ =
      .ok (⟨[(1, [2, 1])], [(1, 0)]⟩, none) :=
  ⟨(step_expansion_concat_order (listM [.step [1]] 10) 0 3 0 [1] [2] ⟨[], []⟩
      (by decide)).1 (by decide),
   (step_expansion_concat_order (listM [.step [1]] 10) 5 3 0 [1] [2] ⟨[], []⟩
      (by decide)).2.2 [1] [2, 1] (by decide) (by decide) (by decide)
      (by decide)⟩

lemma lookup_mem {l : List (Nat × Nat)} {a b : Nat}
    (h : l.lookup a = some b) : (a, b) ∈ l := by
  induction l with
  | nil => simp [List.lookup] at h
  | cons x xs ih =>
    obtain ⟨k, v⟩ := x
    rw [List.lookup_cons] at h
    cases hk : a == k with
    | true =>
      rw [hk] at h
      dsimp only at h
      obtain rfl : a = k := by simpa using hk
      obtain rfl : v = b := by injection h
      exact List.mem_cons_self _ _
    | false =>
      rw [hk] at h
      dsimp only at h
      exact List.mem_cons_of_mem _ (ih h)

/-- The abnormal outcomes the engine can actually produce: fuel
exhaustion (the embedding's marker for non-termination of the Rust
recursion) or a PC-range panic at an unrepresentable address.  Notably the
indexing panic `idxErr` is excluded. -/
def ErrOk (M : Machine S T W) (e : Err) : Prop :=
  e = .fuelOut ∨ ∃ p, e = .pcRange p ∧ M.pcBound ≤ p

/-- What `add` and `processThreads` guarantee about their result: any
error is of the permitted shape, and any returned state maintains the
index invariant. -/
def Shape (M : Machine S T W) (x : Except Err (EngineState W × Option W)) : Prop :=
  (∀ e, x = .error e → ErrOk M e) ∧
  (∀ st' r, x = .ok (st', r) → st'.IndexInv)

lemma shape_ok (M : Machine S T W) (st' : EngineState W) (r : Option W)
    (h : st'.IndexInv) : Shape M (.ok (st', r)) := by
  constructor
  · intro e he
    exact Except.noConfusion he
  · intro st'' r' h'
    simp only [Except.ok.injEq, Prod.mk.injEq] at h'
    exact h'.1 ▸ h

lemma shape_err (M : Machine S T W) (e : Err) (h : ErrOk M e) :
    Shape M (.error e) := by
  constructor
  · intro e' he
    obtain rfl : e = e' := by injection he
    exact h
  · intro st'' r' h'
    exact Except.noConfusion h'

/-- The `Step` case of `add` keeps the index invariant and can only fail
with a PC-range error at `pc + 1`. -/
lemma add_step_shape (M : Machine S T W) (input : T) (fuel pc : Nat) (w : W)
    (st : EngineState W) (hInv : st.IndexInv) (s : S)
    (hs : M.prog.get? pc = some (.step s)) :
    Shape M (M.add input fuel pc w st) := by
  rw [Machine.add.eq_def]
  dsimp only
  rw [hs]
  dsimp only
  cases hb : (M.stepFn s input).bind fun cur => M.ops.concat w cur with
  | none => exact shape_ok M st none hInv
  | some new =>
    dsimp only [as_pc]
    by_cases hpc : pc + 1 < M.pcBound
    · rw [if_pos hpc]
      dsimp only
      cases hl : st.index.lookup (pc + 1) with
      | none =>
        apply shape_ok
        intro p i hmem
        rcases List.mem_cons.mp hmem with h | h
        · obtain ⟨rfl, rfl⟩ := Prod.mk.injEq .. ▸ h
          simp
        · have := hInv p i h
          simp only [List.length_append, List.length_cons, List.length_nil]
          omega
      | some i =>
        dsimp only
        have hi : i < st.threads.length := hInv _ _ (lookup_mem hl)
        cases hg : st.threads.get? i with
        | none =>
          exact absurd (List.get?_eq_none.mp hg) (by omega)
        | some pair =>
          obtain ⟨p, old⟩ := pair
          dsimp only
          apply shape_ok
          intro q j hmem
          have := hInv q j hmem
          simpa using this
    · rw [if_neg hpc]
      exact shape_err M _ (Or.inr ⟨pc + 1, rfl, Nat.le_of_not_lt hpc⟩)

/-- `add` keeps the index invariant and can only fail with fuel
exhaustion or a PC-range error at an unrepresentable address. -/
lemma add_shape (M : Machine S T W) (input : T) :
    ∀ fuel pc (w : W) st, st.IndexInv → Shape M (M.add input fuel pc w st) := by
  intro fuel
  induction fuel with
  | zero =>
    intro pc w st hInv
    rcases hgp : M.prog.get? pc with _ | inst
    · rw [Machine.add.eq_def]
      dsimp only
      rw [hgp]
      exact shape_ok M st (some w) hInv
    · cases inst with
      | step s => exact add_step_shape M input 0 pc w st hInv s hgp
      | jump tgt =>
        rw [Machine.add.eq_def]
        dsimp only
        rw [hgp]
        exact shape_err M _ (Or.inl rfl)
      | preferTarget tgt =>
        rw [Machine.add.eq_def]
        dsimp only
        rw [hgp]
        exact shape_err M _ (Or.inl rfl)
      | preferNext tgt =>
        rw [Machine.add.eq_def]
        dsimp only
        rw [hgp]
        exact shape_err M _ (Or.inl rfl)
  | succ f ih =>
    intro pc w st hInv
    rcases hgp : M.prog.get? pc with _ | inst
    · rw [Machine.add.eq_def]
      dsimp only
      rw [hgp]
      exact shape_ok M st (some w) hInv
    · cases inst with
      | step s => exact add_step_shape M input (f + 1) pc w st hInv s hgp
      | jump tgt =>
        rw [Machine.add.eq_def]
        dsimp only
        rw [hgp]
        exact ih tgt w st hInv
      | preferTarget tgt =>
        rw [Machine.add.eq_def]
        dsimp only
        rw [hgp]
        dsimp only
        cases h1 : M.add input f tgt w st with
        | error e => exact shape_err M e ((ih tgt w st hInv).1 e h1)
        | ok p =>
          obtain ⟨st1, a⟩ := p
          dsimp only
          have hInv1 := (ih tgt w st hInv).2 st1 a h1
          cases h2 : M.add input f (pc + 1) w st1 with
          | error e => exact shape_err M e ((ih (pc + 1) w st1 hInv1).1 e h2)
          | ok q =>
            obtain ⟨st2, b⟩ := q
            dsimp only
            exact shape_ok M st2 _ ((ih (pc + 1) w st1 hInv1).2 st2 b h2)
      | preferNext tgt =>
        rw [Machine.add.eq_def]
        dsimp only
        rw [hgp]
        dsimp only
        cases h1 : M.add input f (pc + 1) w st with
        | error e => exact shape_err M e ((ih (pc + 1) w st hInv).1 e h1)
        | ok p =>
          obtain ⟨st1, a⟩ := p
          dsimp only
          have hInv1 := (ih (pc + 1) w st hInv).2 st1 a h1
          cases h2 : M.add input f tgt w st1 with
          | error e => exact shape_err M e ((ih tgt w st1 hInv1).1 e h2)
          | ok q =>
            obtain ⟨st2, b⟩ := q
            dsimp only
            exact shape_ok M st2 _ ((ih tgt w st1 hInv1).2 st2 b h2)

lemma processThreads_shape (M : Machine S T W) (input : T) (fuel : Nat) :
    ∀ ts (st : EngineState W) m, st.IndexInv →
      Shape M (M.processThreads input fuel ts st m) := by
  intro ts
  induction ts with
  | nil =>
    intro st m hInv
    exact shape_ok M st m hInv
  | cons t rest ih =>
    intro st m hInv
    obtain ⟨pc, w⟩ := t
    rw [Machine.processThreads.eq_def]
    dsimp only
    cases h1 : M.add input fuel pc w st with
    | error e => exact shape_err M e ((add_shape M input fuel pc w st hInv).1 e h1)
    | ok p =>
      obtain ⟨st1, r⟩ := p
      dsimp only
      exact ih st1 _ ((add_shape M input fuel pc w st hInv).2 st1 r h1)

lemma evalLoop_err (M : Machine S T W) (fuel : Nat) :
    ∀ inputs (st : EngineState W) res e,
      M.evalLoop fuel inputs st res = .error e → ErrOk M e := by
  intro inputs
  induction inputs with
  | nil =>
    intro st res e h
    exact Except.noConfusion h
  | cons t rest ih =>
    intro st res e h
    rw [Machine.evalLoop.eq_def] at h
    dsimp only at h
    cases h1 : M.processThreads t fuel st.threads ⟨[], []⟩ none with
    | error e1 =>
      rw [h1] at h
      obtain rfl : e1 = e := by injection h
      exact (processThreads_shape M t fuel st.threads ⟨[], []⟩ none
        (by intro p i hmem; simp at hmem)).1 _ h1
    | ok p =>
      obtain ⟨st1, matched⟩ := p
      rw [h1] at h
      dsimp only at h
      split at h
      · exact Except.noConfusion h
      · exact ih st1 _ e h

/-- C7: a PC-range violation aborts the evaluation.  First conjunct: a
`Step` whose step and concatenation succeed but whose next PC `pc + 1` is
not representable makes `add` fail with exactly the `pcRange (pc + 1)`
panic.  Second conjunct: any abnormal outcome of `eval` is either such a
PC-range panic at an unrepresentable address or the embedding's fuel
marker (standing for non-termination of the Rust recursion, which is not
an abort); in particular the vector-indexing panic in the occupied-entry
branch is unreachable, and match/concat failures never abort. -/
theorem pc_range_only_abort (M : Machine S T W) :
    (∀ (input : T) fuel pc s (w c new : W) st,
      M.prog.get? pc = some (.step s) →
      M.stepFn s input = some c → M.ops.concat w c = some new →
      M.pcBound ≤ pc + 1 →
      M.add input fuel pc w st = .error (.pcRange (pc + 1))) ∧
    (∀ st0 fuel inputs e, M.eval st0 fuel inputs = .error e →
      e = .fuelOut ∨ ∃ p, e = .pcRange p ∧ M.pcBound ≤ p) := by
  constructor
  · intro input fuel pc s w c new st hs hc hcat hpc
    rw [Machine.add.eq_def]
    dsimp only
    rw [hs]
    simp [hc, hcat, as_pc, Nat.not_lt.mpr hpc]
  · intro st0 fuel inputs e h
    unfold Machine.eval at h
    dsimp only [as_pc] at h
    by_cases h0 : 0 < M.pcBound
    · rw [if_pos h0] at h
      exact evalLoop_err M fuel inputs _ none e h
    · rw [if_neg h0] at h
      obtain rfl : Err.pcRange 0 = e := by injection h
      exact Or.inr ⟨0, rfl, Nat.le_of_not_lt h0⟩

theorem pc_range_only_abort_witness :
    (listM [.step [1]] 1).add 5 3 0 [2] ⟨[], []⟩ =
      .error (.pcRange 1) ∧
    (Err.pcRange 1 = .fuelOut ∨
      ∃ p, Err.pcRange 1 = .pcRange p ∧ (listM [.step [1]] 1).pcBound ≤ p) :=
  ⟨(pc_range_only_abort (listM [.step [1]] 1)).1 5 3 0 [1] [2] [1] [2, 1]
      ⟨[], []⟩ (by decide) (by decide) (by decide) (by decide),
   (pc_range_only_abort (listM [.step [1]] 1)).2 ⟨[], []⟩ 3 [5]
      (.pcRange 1) (by decide)⟩

lemma chain_reaches {α : Type} {e : α → α → Prop} :
    ∀ {x : α} {l : List α} {a : α}, List.Chain e x l → a ∈ l →
      Relation.TransGen e x a := by
  intro x l
  induction l generalizing x with
  | nil =>
    intro a _ ha
    simp at ha
  | cons b l' ih =>
    intro a hch ha
    cases hch with
    | cons hxb hch' =>
      rcases List.mem_cons.mp ha with rfl | ha'
      · exact Relation.TransGen.single hxb
      · exact Relation.TransGen.head hxb (ih hch' ha')

lemma chain_cycle {α : Type} {e : α → α → Prop} :
    ∀ {x : α} {l : List α} {a : α}, List.Chain e x l →
      List.Sublist [a, a] (x :: l) → Relation.TransGen e a a := by
  intro x l
  induction l generalizing x with
  | nil =>
    intro a _ hsub
    have := hsub.length_le
    simp at this
  | cons b l' ih =>
    intro a hch hsub
    cases hch with
    | cons hxb hch' =>
      cases hsub with
      | cons _ h' => exact ih hch' h'
      | cons₂ _ h' =>
        exact chain_reaches (List.Chain.cons hxb hch')
          (List.singleton_sublist.mp h')

lemma chain_sources {α : Type} {e : α → α → Prop} :
    ∀ {x : α} {l : List α}, List.Chain e x l →
      ∀ a ∈ (x :: l).dropLast, ∃ b, e a b := by
  intro x l
  induction l generalizing x with
  | nil =>
    intro _ a ha
    simp at ha
  | cons b l' ih =>
    intro hch a ha
    cases hch with
    | cons hxb hch' =>
      rw [show (x :: b :: l').dropLast = x :: (b :: l').dropLast from rfl] at ha
      rcases List.mem_cons.mp ha with rfl | ha'
      · exact ⟨b, hxb⟩
      · exact ih hch' a ha'

/-- The source of a control edge is the position of a non-`Step`
instruction. -/
lemma ctrlEdge_src (M : Machine S T W) {a b : Nat} (h : M.ctrlEdge a b) :
    a < M.prog.length ∧
      ((M.prog.get? a).any fun i => !i.isStep) = true := by
  obtain ⟨i, hi, hmem⟩ := h
  have halen : a < M.prog.length := by
    by_contra hlen
    rw [List.get?_eq_none.mpr (Nat.le_of_not_lt hlen)] at hi
    exact Option.noConfusion hi
  refine ⟨halen, ?_⟩
  rw [hi]
  cases i with
  | step s => simp [ctrlTargets] at hmem
  | jump tgt => simp [Inst.isStep]
  | preferTarget tgt => simp [Inst.isStep]
  | preferNext tgt => simp [Inst.isStep]

/-- Counting positions holding a non-`Step` instruction equals counting
non-`Step` instructions. -/
lemma countP_range_any (l : List (Inst S)) :
    (List.range l.length).countP
        (fun pc => (l.get? pc).any fun i => !i.isStep) =
      l.countP fun i => !i.isStep := by
  induction l with
  | nil => simp
  | cons a l ih =>
    rw [List.length_cons, List.range_succ_eq_map, List.countP_cons,
      List.countP_map, List.countP_cons]
    simp only [Function.comp_def, List.get?_cons_succ, List.get?_cons_zero,
      Option.any_some]
    rw [ih]

/-- Pigeonhole: when no control-only cycle exists, every chain in the
control graph has at most `ctrlCount` edges. -/
lemma chain_length_le (M : Machine S T W)
    (hacyc : ∀ pc, ¬ Relation.TransGen M.ctrlEdge pc pc)
    (pc : Nat) (l : List Nat) (hch : List.Chain M.ctrlEdge pc l) :
    l.length ≤ M.ctrlCount := by
  by_contra hlt
  push_neg at hlt
  simp only [Machine.ctrlCount] at hlt
  have hdlen : ((pc :: l).dropLast).length = l.length := by simp
  by_cases hnd : ((pc :: l).dropLast).Nodup
  · have hsub : (pc :: l).dropLast ⊆
        (List.range M.prog.length).filter
          (fun q => (M.prog.get? q).any fun i => !i.isStep) := by
      intro a ha
      obtain ⟨b, hb⟩ := chain_sources hch a ha
      obtain ⟨h1, h2⟩ := ctrlEdge_src M hb
      rw [List.mem_filter]
      exact ⟨List.mem_range.mpr h1, h2⟩
    have hle := (hnd.subperm hsub).length_le
    rw [hdlen, ← List.countP_eq_length_filter, countP_range_any] at hle
    omega
  · obtain ⟨x, hx⟩ : ∃ x, List.Sublist [x, x] ((pc :: l).dropLast) := by
      by_contra hno
      push_neg at hno
      exact hnd (List.nodup_iff_sublist.mpr fun a => hno a)
    exact hacyc x (chain_cycle hch (hx.trans (List.dropLast_sublist _)))

/-- When every control chain from `pc` is shorter than `fuel`, the
expansion at `pc` cannot exhaust its fuel: its recursion depth is bounded
by the length of control chains. -/
lemma add_ne_fuelOut (M : Machine S T W) (input : T) :
    ∀ fuel pc, (∀ l, List.Chain M.ctrlEdge pc l → l.length < fuel) →
      ∀ (w : W) st, M.add input fuel pc w st ≠ .error .fuelOut := by
  intro fuel
  induction fuel with
  | zero =>
    intro pc hb w st _
    exact absurd (hb [] List.Chain.nil) (by simp)
  | succ f ih =>
    intro pc hb w st
    rw [Machine.add.eq_def]
    dsimp only
    rcases hgp : M.prog.get? pc with _ | inst
    · simp
    · cases inst with
      | step s =>
        dsimp only
        cases hbnd : (M.stepFn s input).bind fun cur => M.ops.concat w cur with
        | none => simp
        | some new =>
          dsimp only [as_pc]
          by_cases hpc : pc + 1 < M.pcBound
          · rw [if_pos hpc]
            dsimp only
            cases st.index.lookup (pc + 1) with
            | none => simp
            | some i =>
              dsimp only
              cases st.threads.get? i with
              | none => simp
              | some pair =>
                obtain ⟨p, old⟩ := pair
                simp
          · rw [if_neg hpc]
            simp
      | jump tgt =>
        dsimp only
        have hedge : M.ctrlEdge pc tgt := ⟨_, hgp, by simp [ctrlTargets]⟩
        refine ih tgt ?_ w st
        intro l hl
        have := hb (tgt :: l) (List.Chain.cons hedge hl)
        simpa using this
      | preferTarget tgt =>
        dsimp only
        have hedge1 : M.ctrlEdge pc tgt := ⟨_, hgp, by simp [ctrlTargets]⟩
        have hedge2 : M.ctrlEdge pc (pc + 1) := ⟨_, hgp, by simp [ctrlTargets]⟩
        have hbt : ∀ l, List.Chain M.ctrlEdge tgt l → l.length < f := by
          intro l hl
          have := hb (tgt :: l) (List.Chain.cons hedge1 hl)
          simpa using this
        have hbn : ∀ l, List.Chain M.ctrlEdge (pc + 1) l → l.length < f := by
          intro l hl
          have := hb ((pc + 1) :: l) (List.Chain.cons hedge2 hl)
          simpa using this
        cases h1 : M.add input f tgt w st with
        | error e =>
          dsimp only
          intro hcontra
          obtain rfl : e = .fuelOut := by injection hcontra
          exact ih tgt hbt w st h1
        | ok p =>
          obtain ⟨st1, a⟩ := p
          dsimp only
          cases h2 : M.add input f (pc + 1) w st1 with
          | error e =>
            intro hcontra
            obtain rfl : e = .fuelOut := by injection hcontra
            exact ih (pc + 1) hbn w st1 h2
          | ok q =>
            obtain ⟨st2, b⟩ := q
            simp
      | preferNext tgt =>
        dsimp only
        have hedge1 : M.ctrlEdge pc tgt := ⟨_, hgp, by simp [ctrlTargets]⟩
        have hedge2 : M.ctrlEdge pc (pc + 1) := ⟨_, hgp, by simp [ctrlTargets]⟩
        have hbt : ∀ l, List.Chain M.ctrlEdge tgt l → l.length < f := by
          intro l hl
          have := hb (tgt :: l) (List.Chain.cons hedge1 hl)
          simpa using this
        have hbn : ∀ l, List.Chain M.ctrlEdge (pc + 1) l → l.length < f := by
          intro l hl
          have := hb ((pc + 1) :: l) (List.Chain.cons hedge2 hl)
          simpa using this
        cases h1 : M.add input f (pc + 1) w st with
        | error e =>
          dsimp only
          intro hcontra
          obtain rfl : e = .fuelOut := by injection hcontra
          exact ih (pc + 1) hbn w st h1
        | ok p =>
          obtain ⟨st1, a⟩ := p
          dsimp only
          cases h2 : M.add input f tgt w st1 with
          | error e =>
            intro hcontra
            obtain rfl : e = .fuelOut := by injection hcontra
            exact ih tgt hbt w st1 h2
          | ok q =>
            obtain ⟨st2, b⟩ := q
            simp

lemma processThreads_ne_fuelOut (M : Machine S T W) (input : T) (fuel : Nat)
    (h : ∀ pc (w : W) st, M.add input fuel pc w st ≠ .error .fuelOut) :
    ∀ ts (st : EngineState W) m,
      M.processThreads input fuel ts st m ≠ .error .fuelOut := by
  intro ts
  induction ts with
  | nil =>
    intro st m
    simp [Machine.processThreads]
  | cons t rest ih =>
    intro st m
    obtain ⟨pc, w⟩ := t
    rw [Machine.processThreads.eq_def]
    dsimp only
    cases h1 : M.add input fuel pc w st with
    | error e =>
      intro hcontra
      obtain rfl : e = .fuelOut := by injection hcontra
      exact h pc w st h1
    | ok p =>
      obtain ⟨st1, r⟩ := p
      dsimp only
      exact ih st1 _

lemma evalLoop_ne_fuelOut (M : Machine S T W) (fuel : Nat)
    (h : ∀ (input : T) pc (w : W) st,
      M.add input fuel pc w st ≠ .error .fuelOut) :
    ∀ inputs (st : EngineState W) res,
      M.evalLoop fuel inputs st res ≠ .error .fuelOut := by
  intro inputs
  induction inputs with
  | nil =>
    intro st res
    simp [Machine.evalLoop]
  | cons t rest ih =>
    intro st res
    rw [Machine.evalLoop.eq_def]
    dsimp only
    cases h1 : M.processThreads t fuel st.threads ⟨[], []⟩ none with
    | error e =>
      intro hcontra
      obtain rfl : e = .fuelOut := by injection hcontra
      exact processThreads_ne_fuelOut M t fuel (h t) st.threads ⟨[], []⟩ none h1
    | ok p =>
      obtain ⟨st1, matched⟩ := p
      dsimp only
      split
      · simp
      · exact ih st1 _

/-- C8: for a program in which every cycle among the non-consuming
control instructions (Jump, PreferTarget, PreferNext) passes through at
least one Step — i.e. the control graph has no control-only cycle — the
expansion recursion terminates for every starting PC, weight and symbol:
its recursion depth is bounded by the number of non-Step instructions, so
fuel `ctrlCount + 1` is never exhausted, and evaluation with that fuel
terminates normally on every finite input. -/
theorem acyclic_control_terminates (M : Machine S T W)
    (hacyc : ∀ pc, ¬ Relation.TransGen M.ctrlEdge pc pc) :
    (∀ (input : T) fuel pc (w : W) st, M.ctrlCount + 1 ≤ fuel →
      M.add input fuel pc w st ≠ .error .fuelOut) ∧
    (∀ (st0 : EngineState W) inputs,
      M.eval st0 (M.ctrlCount + 1) inputs ≠ .error .fuelOut) := by
  have hadd : ∀ (input : T) fuel pc (w : W) st, M.ctrlCount + 1 ≤ fuel →
      M.add input fuel pc w st ≠ .error .fuelOut := by
    intro input fuel pc w st hf
    refine add_ne_fuelOut M input fuel pc ?_ w st
    intro l hl
    have := chain_length_le M hacyc pc l hl
    omega
  refine ⟨hadd, ?_⟩
  intro st0 inputs
  unfold Machine.eval
  dsimp only [as_pc]
  by_cases h0 : 0 < M.pcBound
  · rw [if_pos h0]
    exact evalLoop_ne_fuelOut M _
      (fun input pc w st => hadd input _ pc w st le_rfl) inputs _ none
  · rw [if_neg h0]
    simp

/-- A relation with no edge at all has no transitive cycle. -/
lemma transGen_irrefl_of_no_edge {e : Nat → Nat → Prop}
    (h : ∀ a b, ¬ e a b) (pc : Nat) : ¬ Relation.TransGen e pc pc := by
  intro ht
  cases ht with
  | single h1 => exact h _ _ h1
  | tail _ h1 => exact h _ _ h1

/-- The single-`Step` example program has no control edge. -/
lemma no_ctrlEdge_single_step :
    ∀ a b, ¬ (listM [.step [1]] 10).ctrlEdge a b := by
  intro a b h
  obtain ⟨i, hi, hmem⟩ := h
  cases a with
  | zero =>
    obtain rfl : Inst.step [1] = i := by injection hi
    simp [ctrlTargets] at hmem
  | succ n =>
    simp [listM] at hi

theorem acyclic_control_terminates_witness :
    (listM [.step [1]] 10).add 5 2 0 [] ⟨[], []⟩ ≠ .error .fuelOut ∧
    (listM [.step [1]] 10).eval ⟨[], []⟩
        ((listM [.step [1]] 10).ctrlCount + 1) [5] ≠ .error .fuelOut :=
  ⟨(acyclic_control_terminates (listM [.step [1]] 10)
      (transGen_irrefl_of_no_edge no_ctrlEdge_single_step)).1 5 2 0 [] ⟨[], []⟩
      (by decide),
   (acyclic_control_terminates (listM [.step [1]] 10)
      (transGen_irrefl_of_no_edge no_ctrlEdge_single_step)).2 ⟨[], []⟩ [5]⟩

end Parsink
